import Mathlib

/-!
Verification of the cho framework (graph builder, compiler, injector,
command/web linkers, lifecycle hooks) against its natural-language
specification.  Each component of the TypeScript source is shallowly
embedded as executable Lean definitions; the claims of the specification
are settled as theorems about those definitions.
-/

set_option maxRecDepth 4000

namespace Cho

/-! ## Command linker: middleware chain runner

Embedding of `src/command/linker.ts`.

`linkHandler(handler, middlewares, errorHandler)` builds an invoker whose
inner `next(e?)` function
  * on an error argument: if an error handler exists, awaits it and
    returns; otherwise rethrows the error;
  * while middlewares remain: runs the next middleware, catching a thrown
    error into `next(err)`;
  * once the list is exhausted: runs the handler, catching a thrown error
    into `next(err)`.

Middlewares relevant to the claims either record a label and call
`next()` once, or throw.  They are embedded as a small action type, and
the runner mirrors `next`'s control flow by structural recursion on the
remaining middleware list (the code's increasing index `i`).
Labels, error values and handler identities are natural numbers.
-/

/-- A middleware as used by the claims: record a label then call `next()`,
or throw an error before calling `next()`. -/
inductive MwAct where
  | push (lbl : Nat)
  | throwE (e : Nat)
  deriving DecidableEq, Repr

/-- The endpoint handler: record a label and return, or throw. -/
inductive HAct where
  | ok (lbl : Nat)
  | throwE (e : Nat)
  deriving DecidableEq, Repr

/-- Observable events of one invocation: a middleware/handler body ran
(recording its label), or an error handler was invoked with an error. -/
inductive Ev where
  | ran (lbl : Nat)
  | handled (h : Nat) (e : Nat)
  deriving DecidableEq, Repr

/-- The error branch of `next(e)`: with an error handler the error is
delivered to it and the invocation completes; without one the error is
rethrown to the caller (second component). -/
def errBranch (eh : Option Nat) (e : Nat) : List Ev × Option Nat :=
  match eh with
  | some h => ([Ev.handled h e], none)
  | none => ([], some e)

/-- The middleware runner `next` of `linkHandler`, by recursion on the
middlewares not yet run.  Returns the event trace and the propagated
error, if any. -/
def runFrom (eh : Option Nat) (handler : HAct) : List MwAct → List Ev × Option Nat
  | [] =>
    match handler with
    | HAct.ok l => ([Ev.ran l], none)
    | HAct.throwE e => errBranch eh e
  | mw :: rest =>
    match mw with
    | MwAct.push l =>
      let t := runFrom eh handler rest
      (Ev.ran l :: t.1, t.2)
    | MwAct.throwE e => errBranch eh e

/-- The `Linker.apply` middleware composition: module-level middlewares, then
controller (gateway) level, then method (endpoint) level. -/
def applyMiddlewares (modMws ctrlMws methodMws : List MwAct) : List MwAct :=
  modMws ++ ctrlMws ++ methodMws

/-- The `Linker.apply` error-handler selection:
`endpoint.errorHandler ?? cc.errorHandler ?? cm.errorHandler`. -/
def nearestHandler (methodEH ctrlEH modEH : Option Nat) : Option Nat :=
  match methodEH with
  | some h => some h
  | none =>
    match ctrlEH with
    | some h => some h
    | none => modEH

/-- The first error raised during an invocation: the first throwing
middleware's error, else the handler's error, else none. -/
def firstErr : List MwAct → HAct → Option Nat
  | [], HAct.ok _ => none
  | [], HAct.throwE e => some e
  | MwAct.push _ :: rest, h => firstErr rest h
  | MwAct.throwE e :: _, _ => some e

/-- Labels recorded before the first error. -/
def labelsBefore : List MwAct → List Nat
  | [] => []
  | MwAct.push l :: rest => l :: labelsBefore rest
  | MwAct.throwE _ :: _ => []

theorem runFrom_all_push (eh : Option Nat) (hl : Nat) (ls : List Nat) :
    runFrom eh (HAct.ok hl) (ls.map MwAct.push) =
      (ls.map Ev.ran ++ [Ev.ran hl], none) := by
  induction ls with
  | nil => rfl
  | cons a as ih => simp [runFrom, ih]

theorem runFrom_err (eh : Option Nat) (h : HAct) (mws : List MwAct) (e : Nat)
    (hfe : firstErr mws h = some e) :
    runFrom eh h mws =
      ((labelsBefore mws).map Ev.ran ++ (errBranch eh e).1, (errBranch eh e).2) := by
  induction mws with
  | nil =>
    cases h with
    | ok l => simp [firstErr] at hfe
    | throwE e' =>
      simp [firstErr] at hfe
      subst hfe
      simp [runFrom, labelsBefore]
  | cons mw rest ih =>
    cases mw with
    | push l =>
      simp [firstErr] at hfe
      simp [runFrom, labelsBefore, ih hfe]
    | throwE e' =>
      simp [firstErr] at hfe
      subst hfe
      simp [runFrom, labelsBefore]

/-- Whether an event is an error-handler invocation. -/
def isHandledEv : Ev → Bool
  | Ev.handled _ _ => true
  | Ev.ran _ => false

theorem labelsBefore_no_handled (ls : List Nat) :
    (ls.map Ev.ran).filter isHandledEv = [] := by
  induction ls with
  | nil => rfl
  | cons a as ih => simp [isHandledEv, ih]

/-- C4.  With module middlewares recording labels `m1s`, controller
middlewares `m2s` and method middlewares `m3s`, each calling `next()`,
and a handler recording `hl`, the invocation built by `Linker.apply` and
`linkHandler` records exactly `m1s ++ m2s ++ m3s ++ [hl]` in that order:
module level first, then controller level, then method level, then the
handler, with no error propagated. -/
theorem middleware_chain_order (m1s m2s m3s : List Nat) (eh : Option Nat) (hl : Nat) :
    runFrom eh (HAct.ok hl)
      (applyMiddlewares (m1s.map MwAct.push) (m2s.map MwAct.push) (m3s.map MwAct.push)) =
      ((m1s ++ m2s ++ m3s).map Ev.ran ++ [Ev.ran hl], none) := by
  have h := runFrom_all_push eh hl (m1s ++ m2s ++ m3s)
  simpa [applyMiddlewares, List.map_append] using h

/-- C5.  When a middleware or the handler throws (`firstErr` yields `e`),
the invocation built with the `Linker.apply` error-handler selection
delivers `e` to exactly one error handler, chosen nearest-first
(method level if defined, else controller level, else module level), and
propagates `e` to the caller when none of the three is defined. -/
theorem error_handler_resolution (mws : List MwAct) (h : HAct) (e : Nat)
    (methodEH ctrlEH modEH : Option Nat)
    (hfe : firstErr mws h = some e) :
    (∀ k, methodEH = some k →
      (runFrom (nearestHandler methodEH ctrlEH modEH) h mws).2 = none ∧
      ((runFrom (nearestHandler methodEH ctrlEH modEH) h mws).1.filter isHandledEv)
        = [Ev.handled k e]) ∧
    (∀ k, methodEH = none → ctrlEH = some k →
      (runFrom (nearestHandler methodEH ctrlEH modEH) h mws).2 = none ∧
      ((runFrom (nearestHandler methodEH ctrlEH modEH) h mws).1.filter isHandledEv)
        = [Ev.handled k e]) ∧
    (∀ k, methodEH = none → ctrlEH = none → modEH = some k →
      (runFrom (nearestHandler methodEH ctrlEH modEH) h mws).2 = none ∧
      ((runFrom (nearestHandler methodEH ctrlEH modEH) h mws).1.filter isHandledEv)
        = [Ev.handled k e]) ∧
    (methodEH = none → ctrlEH = none → modEH = none →
      (runFrom (nearestHandler methodEH ctrlEH modEH) h mws).2 = some e ∧
      ((runFrom (nearestHandler methodEH ctrlEH modEH) h mws).1.filter isHandledEv)
        = []) := by
  refine ⟨?_, ?_, ?_, ?_⟩
  · intro k hk
    subst hk
    rw [runFrom_err _ h mws e hfe]
    simp [nearestHandler, errBranch, List.filter_append, labelsBefore_no_handled,
      isHandledEv]
  · intro k hm hc
    subst hm; subst hc
    rw [runFrom_err _ h mws e hfe]
    simp [nearestHandler, errBranch, List.filter_append, labelsBefore_no_handled,
      isHandledEv]
  · intro k hm hc hmd
    subst hm; subst hc; subst hmd
    rw [runFrom_err _ h mws e hfe]
    simp [nearestHandler, errBranch, List.filter_append, labelsBefore_no_handled,
      isHandledEv]
  · intro hm hc hmd
    subst hm; subst hc; subst hmd
    rw [runFrom_err _ h mws e hfe]
    simp [nearestHandler, errBranch, List.filter_append, labelsBefore_no_handled]

/-- C5 witness: a concrete invocation whose middleware throws error `7`;
with a method-level handler `5` and a controller-level handler `6`, the
method-level handler receives the error. -/
theorem error_handler_resolution_witness :
    (runFrom (nearestHandler (some 5) (some 6) none) (HAct.ok 9)
        [MwAct.push 1, MwAct.throwE 7]).1.filter isHandledEv = [Ev.handled 5 7] :=
  ((error_handler_resolution [MwAct.push 1, MwAct.throwE 7] (HAct.ok 9) 7
    (some 5) (some 6) none (by decide)).1 5 rfl).2

/-! ## Command application: `ApplicationCommands.run`

Embedding of the sub-command dispatcher of `src/command/linker.ts`
(`ApplicationCommands.run`).  `argv` parsing is external
(`@std/cli/parse-args`); its output is modelled directly as the list of
positional tokens plus the combined `--help`/`-h` flag.  The linked app
carries the command table, the help table (global help under `HelpKey`,
per-command help defaulting to the empty string, as set by
`Linker.apply`), and the optional app-level error handler.  JavaScript
truthiness on the first positional token and on help strings makes the
empty string behave like absence; the model reproduces that. -/

/-- Parsed command-line arguments: positional tokens and the help flag. -/
structure CmdArgs where
  pos : List String
  help : Bool
  deriving DecidableEq, Repr

/-- A linked sub-commands application (`LinkedCommandsApp` plus the
pieces of `Application` that `run` consults). -/
structure CommandsApp where
  commands : List (String × Nat)
  helpGlobal : String
  helpFor : List (String × String)
  hasErrorHandler : Bool

/-- Errors `run` can produce. -/
inductive CmdErr where
  | missingCommand
  | notFound (cmd : String)
  deriving DecidableEq, Repr

/-- Outcome of one `run` invocation. -/
inductive RunOut where
  | printedHelp (s : String)
  | missingHelp
  | handledError (e : CmdErr)
  | thrownError (e : CmdErr)
  | invoked (handler : Nat) (fwd : CmdArgs)
  deriving DecidableEq, Repr

/-- Mirror of `Application.handleHelp`: missing (falsy) help text raises
`MissingHelpError`, otherwise the text is printed. -/
def handleHelp (s : String) : RunOut :=
  if s = "" then RunOut.missingHelp else RunOut.printedHelp s

/-- Mirror of `Application.handleError`: deliver to the app-level error handler if
present, otherwise rethrow. -/
def handleError (app : CommandsApp) (e : CmdErr) : RunOut :=
  if app.hasErrorHandler then RunOut.handledError e else RunOut.thrownError e

/-- Per-command help lookup, defaulting to the empty string
(`app.help[command] = endpointMeta.help ?? ""`). -/
def helpLookup (app : CommandsApp) (cmd : String) : String :=
  match app.helpFor.lookup cmd with
  | some s => s
  | none => ""

/-- Mirror of `ApplicationCommands.run`: select a sub-command by the first
positional token (a falsy token counts as absent), handle the
`--help`/`-h` cases, and otherwise invoke the command with the token
removed from the forwarded positional arguments. -/
def runCommands (app : CommandsApp) (args : CmdArgs) : RunOut :=
  match args.pos with
  | [] =>
    if args.help then handleHelp app.helpGlobal
    else handleError app CmdErr.missingCommand
  | t :: rest =>
    if t = "" then
      if args.help then handleHelp app.helpGlobal
      else handleError app CmdErr.missingCommand
    else
      match app.commands.lookup t with
      | none => handleError app (CmdErr.notFound t)
      | some hdl =>
        if args.help then handleHelp (helpLookup app t)
        else RunOut.invoked hdl ⟨rest, args.help⟩

/-- The error produced by an outcome, whether delivered to the app error
handler or rethrown. -/
def producedError : RunOut → Option CmdErr
  | RunOut.handledError e => some e
  | RunOut.thrownError e => some e
  | _ => none

/-- C6.  For a linked app exposing named sub-commands: a first positional
token matching a command invokes it with the token stripped from the
forwarded positionals; no positional token produces
`MissingCommandError`; an unrecognized token produces `NotFoundError`;
`--help` alone prints the global help and `--help` with a known command
prints that command's help; with the help flag set the underlying
command handler is never invoked. -/
theorem application_commands_run (app : CommandsApp) :
    (∀ t rest hdl, t ≠ "" → app.commands.lookup t = some hdl →
      runCommands app ⟨t :: rest, false⟩ = RunOut.invoked hdl ⟨rest, false⟩) ∧
    (producedError (runCommands app ⟨[], false⟩) = some CmdErr.missingCommand) ∧
    (∀ t rest h, t ≠ "" → app.commands.lookup t = none →
      producedError (runCommands app ⟨t :: rest, h⟩) = some (CmdErr.notFound t)) ∧
    (app.helpGlobal ≠ "" →
      runCommands app ⟨[], true⟩ = RunOut.printedHelp app.helpGlobal) ∧
    (∀ t rest hdl, t ≠ "" → app.commands.lookup t = some hdl →
      helpLookup app t ≠ "" →
      runCommands app ⟨t :: rest, true⟩ = RunOut.printedHelp (helpLookup app t)) ∧
    (∀ args hdl fwd, args.help = true →
      runCommands app args ≠ RunOut.invoked hdl fwd) := by
  refine ⟨?_, ?_, ?_, ?_, ?_, ?_⟩
  · intro t rest hdl ht hl
    simp [runCommands, ht, hl]
  · simp [runCommands, handleError, producedError]
    by_cases h : app.hasErrorHandler <;> simp [h, producedError]
  · intro t rest h ht hl
    simp [runCommands, ht, hl, handleError]
    by_cases he : app.hasErrorHandler <;> simp [he, producedError]
  · intro hg
    simp [runCommands, handleHelp, hg]
  · intro t rest hdl ht hl hh
    simp [runCommands, ht, hl, handleHelp, hh]
  · intro args hdl fwd hh
    obtain ⟨pos, help⟩ := args
    cases help with
    | false => simp at hh
    | true =>
      cases pos with
      | nil =>
        simp [runCommands, handleHelp]
        by_cases hg : app.helpGlobal = "" <;> simp [hg]
      | cons t rest =>
        by_cases ht : t = ""
        · simp [runCommands, ht, handleHelp]
          by_cases hg : app.helpGlobal = "" <;> simp [hg]
        · simp [runCommands, ht]
          cases hl : app.commands.lookup t with
          | none =>
            simp [handleError]
            by_cases he : app.hasErrorHandler <;> simp [he]
          | some hdl' =>
            simp [handleHelp]
            by_cases hc : helpLookup app t = "" <;> simp [hc]

/-- C6 witness: a concrete app with commands `greet` and `list`;
`greet x` invokes the `greet` handler with forwarded positionals `[x]`,
an empty argv produces the missing-command error, `nope` produces the
not-found error, `--help` prints the global help, `greet --help` prints
the command help, and the help flag never invokes a handler. -/
theorem application_commands_run_witness :
    runCommands ⟨[("greet", 1), ("list", 2)], "use me", [("greet", "greets")], false⟩
        ⟨["greet", "x"], false⟩ = RunOut.invoked 1 ⟨["x"], false⟩ ∧
    producedError (runCommands ⟨[("greet", 1), ("list", 2)], "use me",
        [("greet", "greets")], false⟩ ⟨[], false⟩) = some CmdErr.missingCommand ∧
    producedError (runCommands ⟨[("greet", 1), ("list", 2)], "use me",
        [("greet", "greets")], false⟩ ⟨["nope"], false⟩)
      = some (CmdErr.notFound "nope") ∧
    runCommands ⟨[("greet", 1), ("list", 2)], "use me", [("greet", "greets")], false⟩
        ⟨[], true⟩ = RunOut.printedHelp "use me" ∧
    runCommands ⟨[("greet", 1), ("list", 2)], "use me", [("greet", "greets")], false⟩
        ⟨["greet"], true⟩ = RunOut.printedHelp "greets" := by
  have h := application_commands_run
    ⟨[("greet", 1), ("list", 2)], "use me", [("greet", "greets")], false⟩
  refine ⟨h.1 "greet" ["x"] 1 (by decide) (by decide), h.2.1, ?_, ?_, ?_⟩
  · exact h.2.2.1 "nope" [] false (by decide) (by decide)
  · exact h.2.2.2.1 (by decide)
  · have := h.2.2.2.2.1 "greet" [] 1 (by decide) (by decide) (by decide)
    simpa [helpLookup] using this

/-! ## Web linker

Embedding of `src/web/linker.ts`.  A compiled method carries its
declared `meta.type` string exactly as written by the method decorators
(`"GET"`, `"STREAM_TEXT_ASYNC"`, ...); `Linker.method` lowercases it and
switches on the result, selecting an endpoint-construction strategy and
the adapter capability it requires.  An absent capability is a thrown
link-time error; an unrecognized type returns `null` and the method is
skipped by `Linker.controller`.  `Linker.controller` returns `null` for
a controller with no methods or no mounted endpoint; `Linker.feature`
returns `null` when neither a sub-feature nor a controller was mounted,
and `Linker.link` turns a `null` root feature into the
"Cannot link an empty module" error. -/

/-- A compiled method as the web linker sees it. -/
structure WMethod where
  name : String
  type : String
  deriving DecidableEq, Repr

/-- A compiled controller (gateway): its methods. -/
structure WController where
  methods : List WMethod
  deriving DecidableEq, Repr

/-- A compiled module tree: controllers and imported sub-modules. -/
inductive WModule where
  | mk (controllers : List WController) (imports : List WModule)
  deriving Repr

/-- The adapter capability flags consulted by `Linker.method`
(`createStreamEndpoint`, `createTextStreamEndpoint`, `createSseEndpoint`). -/
structure WAdapter where
  hasStream : Bool
  hasTextStream : Bool
  hasSse : Bool
  deriving DecidableEq, Repr

/-- The adapter capability used to mount an endpoint. -/
inductive Cap where
  | streamCap
  | textStreamCap
  | sseCap
  deriving DecidableEq, Repr

/-- The channel-specific write used by `linkAsyncStream`. -/
inductive Chan where
  | raw
  | str
  | sse
  deriving DecidableEq, Repr

/-- A mounted endpoint: the strategy chosen by `Linker.method`. -/
inductive Endpoint where
  | http (name : String)
  | syncStream (cap : Cap) (name : String)
  | asyncStream (cap : Cap) (chan : Chan) (name : String)
  deriving DecidableEq, Repr

/-- Link-time errors thrown by the web linker. -/
inductive LinkErr where
  | unsupported (kind : String)
  | emptyModule
  deriving DecidableEq, Repr

/-- Mirror of `type.toLocaleLowerCase()`: character-wise ASCII lowercasing of the
declared type string. -/
def lowerString (s : String) : String :=
  String.mk (s.data.map Char.toLower)

/-- Mirror of `Linker.method`: lowercase the declared type and select the
endpoint-construction strategy; `none` means the method is skipped.
The `"steam_text_async"` case label is the source's, verbatim. -/
def methodLink (ad : WAdapter) (m : WMethod) : Except LinkErr (Option Endpoint) :=
  let t := lowerString m.type
  if t = "get" ∨ t = "post" ∨ t = "put" ∨ t = "delete" ∨ t = "patch" then
    Except.ok (some (Endpoint.http m.name))
  else if t = "stream" then
    if ad.hasStream then Except.ok (some (Endpoint.syncStream Cap.streamCap m.name))
    else Except.error (LinkErr.unsupported "stream")
  else if t = "stream_text" then
    if ad.hasTextStream then Except.ok (some (Endpoint.syncStream Cap.textStreamCap m.name))
    else Except.error (LinkErr.unsupported "text stream")
  else if t = "sse" then
    if ad.hasSse then Except.ok (some (Endpoint.syncStream Cap.sseCap m.name))
    else Except.error (LinkErr.unsupported "SSE")
  else if t = "stream_async" then
    if ad.hasStream then
      Except.ok (some (Endpoint.asyncStream Cap.streamCap Chan.raw m.name))
    else Except.error (LinkErr.unsupported "stream")
  else if t = "steam_text_async" then
    if ad.hasTextStream then
      Except.ok (some (Endpoint.asyncStream Cap.textStreamCap Chan.str m.name))
    else Except.error (LinkErr.unsupported "text stream")
  else if t = "sse_async" then
    if ad.hasSse then
      Except.ok (some (Endpoint.asyncStream Cap.sseCap Chan.sse m.name))
    else Except.error (LinkErr.unsupported "SSE")
  else
    Except.ok none

/-- Endpoints of a controller's methods, in order; a thrown error
propagates, skipped methods are dropped. -/
def methodsLink (ad : WAdapter) : List WMethod → Except LinkErr (List Endpoint)
  | [] => Except.ok []
  | m :: ms =>
    match methodLink ad m with
    | Except.error e => Except.error e
    | Except.ok o =>
      match methodsLink ad ms with
      | Except.error e => Except.error e
      | Except.ok es =>
        match o with
        | some ep => Except.ok (ep :: es)
        | none => Except.ok es

/-- Mirror of `Linker.controller`: `null` when there are no methods or nothing was
mounted. -/
def controllerLink (ad : WAdapter) (cg : WController) :
    Except LinkErr (Option (List Endpoint)) :=
  match cg.methods with
  | [] => Except.ok none
  | _ =>
    match methodsLink ad cg.methods with
    | Except.error e => Except.error e
    | Except.ok [] => Except.ok none
    | Except.ok (ep :: es) => Except.ok (some (ep :: es))

/-- Controllers of a module, errors propagating, in order. -/
def controllersLink (ad : WAdapter) :
    List WController → Except LinkErr (List (Option (List Endpoint)))
  | [] => Except.ok []
  | c :: cs =>
    match controllerLink ad c with
    | Except.error e => Except.error e
    | Except.ok o =>
      match controllersLink ad cs with
      | Except.error e => Except.error e
      | Except.ok os => Except.ok (o :: os)

/-- An adapter-native feature container: its mounted sub-features and
mounted controllers. -/
inductive Feat where
  | mk (subs : List Feat) (ctrls : List (List Endpoint))
  deriving Repr

/-- Mirror of `Linker.feature`: mount sub-features of imports (skipping `null`
ones), then controllers (skipping `null` ones); `null` when nothing was
mounted.  `featureLinkList` links each import's sub-feature in declared
order. -/
def featureLink (ad : WAdapter) : WModule → Except LinkErr (Option Feat)
  | WModule.mk ctrls imps =>
    match featureLinkList imps with
    | Except.error e => Except.error e
    | Except.ok subs =>
      match controllersLink ad ctrls with
      | Except.error e => Except.error e
      | Except.ok cs =>
        match subs.filterMap id, cs.filterMap id with
        | [], [] => Except.ok none
        | _, _ => Except.ok (some (Feat.mk (subs.filterMap id) (cs.filterMap id)))
where
  featureLinkList : List WModule → Except LinkErr (List (Option Feat))
    | [] => Except.ok []
    | m :: ms =>
      match featureLink ad m with
      | Except.error e => Except.error e
      | Except.ok f =>
        match featureLinkList ms with
        | Except.error e => Except.error e
        | Except.ok fs => Except.ok (f :: fs)

/-- Mirror of `Linker.link`: a `null` root feature is the hard
"Cannot link an empty module" failure. -/
def linkWeb (ad : WAdapter) (cm : WModule) : Except LinkErr Feat :=
  match featureLink ad cm with
  | Except.ok none => Except.error LinkErr.emptyModule
  | Except.ok (some f) => Except.ok f
  | Except.error e => Except.error e

/-- The lowercased type strings recognized by `Linker.method`'s switch. -/
def recognizedType (t : String) : Bool :=
  decide ((t = "get" ∨ t = "post" ∨ t = "put" ∨ t = "delete" ∨ t = "patch") ∨
    t = "stream" ∨ t = "stream_text" ∨ t = "sse" ∨ t = "stream_async" ∨
    t = "steam_text_async" ∨ t = "sse_async")

/-- The claim's emptiness notion for a controller: no method of it is
mountable (none has a type the linker recognizes). -/
def emptyCtrl (c : WController) : Bool :=
  c.methods.all (fun m => !recognizedType (lowerString m.type))

/-- The claim's emptiness notion for a compiled tree: every controller
has no mountable method and every imported sub-module is likewise
empty. -/
def emptyTree : WModule → Bool
  | WModule.mk ctrls imps => ctrls.all emptyCtrl && emptyTreeList imps
where
  emptyTreeList : List WModule → Bool
    | [] => true
    | m :: ms => emptyTree m && emptyTreeList ms

/-- C2 counterexample evidence / code evaluation: a method declared with
the `StreamTextAsync` decorator carries type `"STREAM_TEXT_ASYNC"`, which
lowercases to `"stream_text_async"`; the linker's switch only has a
`"steam_text_async"` case, so the method is silently skipped (no
endpoint, no error) even on an adapter providing
`createTextStreamEndpoint` — and a whole controller holding only such a
method is dropped, making the root unlinkable. -/
theorem stream_text_async_silently_skipped :
    methodLink ⟨true, true, true⟩ ⟨"f", "STREAM_TEXT_ASYNC"⟩ = Except.ok none ∧
    methodLink ⟨false, false, false⟩ ⟨"f", "STREAM_TEXT_ASYNC"⟩ = Except.ok none ∧
    linkWeb ⟨true, true, true⟩
        (WModule.mk [⟨[⟨"f", "STREAM_TEXT_ASYNC"⟩]⟩] [])
      = Except.error LinkErr.emptyModule := by
  exact ⟨rfl, rfl, rfl⟩

theorem methodLink_full (ad : WAdapter) (h1 : ad.hasStream = true)
    (h2 : ad.hasTextStream = true) (h3 : ad.hasSse = true) (m : WMethod) :
    ∃ o, methodLink ad m = Except.ok o ∧
      o.isSome = recognizedType (lowerString m.type) := by
  unfold methodLink
  simp only [h1, h2, h3, if_true]
  split_ifs with c1 c2 c3 c4 c5 c6 c7
  · exact ⟨_, rfl, by simp [recognizedType, c1]⟩
  · exact ⟨_, rfl, by simp [recognizedType, c2]⟩
  · exact ⟨_, rfl, by simp [recognizedType, c3]⟩
  · exact ⟨_, rfl, by simp [recognizedType, c4]⟩
  · exact ⟨_, rfl, by simp [recognizedType, c5]⟩
  · exact ⟨_, rfl, by simp [recognizedType, c6]⟩
  · exact ⟨_, rfl, by simp [recognizedType, c7]⟩
  · exact ⟨none, rfl, by simp [recognizedType, c1, c2, c3, c4, c5, c6, c7]⟩

theorem methodsLink_full (ad : WAdapter) (h1 : ad.hasStream = true)
    (h2 : ad.hasTextStream = true) (h3 : ad.hasSse = true) (ms : List WMethod) :
    ∃ es, methodsLink ad ms = Except.ok es ∧
      ((es = []) ↔ (ms.all (fun m => !recognizedType (lowerString m.type)) = true)) := by
  induction ms with
  | nil => exact ⟨[], rfl, by simp⟩
  | cons m ms ih =>
    obtain ⟨o, ho, hs⟩ := methodLink_full ad h1 h2 h3 m
    obtain ⟨es, hes, hiff⟩ := ih
    cases o with
    | none =>
      refine ⟨es, by simp [methodsLink, ho, hes], ?_⟩
      simp only [Option.isSome_none] at hs
      simp [List.all_cons, hiff, ← hs]
    | some ep =>
      refine ⟨ep :: es, by simp [methodsLink, ho, hes], ?_⟩
      simp only [Option.isSome_some] at hs
      simp [List.all_cons, ← hs]

theorem controllerLink_full (ad : WAdapter) (h1 : ad.hasStream = true)
    (h2 : ad.hasTextStream = true) (h3 : ad.hasSse = true) (c : WController) :
    ∃ o, controllerLink ad c = Except.ok o ∧ ((o = none) ↔ emptyCtrl c = true) := by
  obtain ⟨es, hes, hiff⟩ := methodsLink_full ad h1 h2 h3 c.methods
  cases hm : c.methods with
  | nil => exact ⟨none, by simp [controllerLink, hm], by simp [emptyCtrl, hm]⟩
  | cons m ms =>
    rw [hm] at hes hiff
    cases es with
    | nil =>
      refine ⟨none, by simp [controllerLink, hm, hes], ?_⟩
      have hall := hiff.1 rfl
      simp [emptyCtrl, hm]
      simpa using hall
    | cons ep es' =>
      refine ⟨some (ep :: es'), by simp [controllerLink, hm, hes], ?_⟩
      have hallf : (m :: ms).all (fun x => !recognizedType (lowerString x.type)) = false := by
        cases hall : (m :: ms).all (fun x => !recognizedType (lowerString x.type)) with
        | false => rfl
        | true => exact absurd (hiff.2 hall) (by simp)
      simp [emptyCtrl, hm]
      simpa using hallf

theorem controllersLink_full (ad : WAdapter) (h1 : ad.hasStream = true)
    (h2 : ad.hasTextStream = true) (h3 : ad.hasSse = true) (cs : List WController) :
    ∃ os, controllersLink ad cs = Except.ok os ∧
      ((os.filterMap id = []) ↔ cs.all emptyCtrl = true) := by
  induction cs with
  | nil => exact ⟨[], rfl, by simp⟩
  | cons c cs ih =>
    obtain ⟨o, ho, hoiff⟩ := controllerLink_full ad h1 h2 h3 c
    obtain ⟨os, hos, hiff⟩ := ih
    refine ⟨o :: os, by simp [controllersLink, ho, hos], ?_⟩
    cases o with
    | none => simp [List.all_cons, hiff, hoiff.1 rfl]
    | some eps =>
      simp [List.all_cons]
      intro hempty
      exact absurd (hoiff.2 hempty) (by simp)

theorem featureLink_full (ad : WAdapter) (h1 : ad.hasStream = true)
    (h2 : ad.hasTextStream = true) (h3 : ad.hasSse = true) :
    ∀ (n : Nat) (m : WModule), sizeOf m ≤ n →
      ∃ o, featureLink ad m = Except.ok o ∧ ((o = none) ↔ emptyTree m = true) := by
  intro n
  induction n with
  | zero =>
    intro m hm
    cases m with
    | mk ctrls imps =>
      rw [WModule.mk.sizeOf_spec] at hm
      omega
  | succ n ih =>
    intro m hm
    cases m with
    | mk ctrls imps =>
      have hsub : ∀ im ∈ imps, sizeOf im ≤ n := by
        intro im him
        have hlt := List.sizeOf_lt_of_mem him
        have hspec : sizeOf (WModule.mk ctrls imps) = 1 + sizeOf ctrls + sizeOf imps :=
          WModule.mk.sizeOf_spec ctrls imps
        omega
      have hlist : ∀ (ms : List WModule), (∀ im ∈ ms, sizeOf im ≤ n) →
          ∃ fs, featureLink.featureLinkList ad ms = Except.ok fs ∧
            ((fs.filterMap id = []) ↔ emptyTree.emptyTreeList ms = true) := by
        intro ms
        induction ms with
        | nil => intro _; exact ⟨[], rfl, by simp [emptyTree.emptyTreeList]⟩
        | cons m' ms' ihl =>
          intro hms
          obtain ⟨f, hf, hfiff⟩ := ih m' (hms m' (by simp))
          obtain ⟨fs, hfs, hfsiff⟩ := ihl (fun im him => hms im (by simp [him]))
          refine ⟨f :: fs, by simp [featureLink.featureLinkList, hf, hfs], ?_⟩
          cases f with
          | none =>
            simp [emptyTree.emptyTreeList, hfsiff, hfiff.1 rfl]
          | some ft =>
            simp [emptyTree.emptyTreeList]
            intro hempty
            exact absurd (hfiff.2 hempty) (by simp)
      obtain ⟨fs, hfs, hfsiff⟩ := hlist imps hsub
      obtain ⟨os, hos, hosiff⟩ := controllersLink_full ad h1 h2 h3 ctrls
      match hsm : fs.filterMap id, hcm : os.filterMap id with
      | [], [] =>
        refine ⟨none, ?_, ?_⟩
        · simp [featureLink, hfs, hos, hsm, hcm]
        · simp [emptyTree, hosiff.1 hcm, hfsiff.1 hsm]
      | ft :: fts, _ =>
        refine ⟨some (Feat.mk (fs.filterMap id) (os.filterMap id)), ?_, ?_⟩
        · simp [featureLink, hfs, hos, hsm]
        · have himp : emptyTree.emptyTreeList imps = false := by
            cases h : emptyTree.emptyTreeList imps with
            | false => rfl
            | true => exact absurd (hfsiff.2 h) (by simp [hsm])
          simp [emptyTree, himp]
      | [], ot :: ots =>
        refine ⟨some (Feat.mk (fs.filterMap id) (os.filterMap id)), ?_, ?_⟩
        · simp [featureLink, hfs, hos, hsm, hcm]
        · have hctf : ctrls.all emptyCtrl = false := by
            cases h : ctrls.all emptyCtrl with
            | false => rfl
            | true => exact absurd (hosiff.2 h) (by simp [hcm])
          simp [emptyTree, hctf]

/-- C10.  On an adapter providing all streaming capabilities, the web
linker's `link` fails with the "Cannot link an empty module" error
exactly when the whole compiled tree contributes no mountable endpoint
(every controller has no mountable method and every import is likewise
empty); a non-empty tree links to an application, and any (sub-)module
whose branch is empty is returned as `null` (pruned) rather than
mounted. -/
theorem link_empty_module (ad : WAdapter) (h1 : ad.hasStream = true)
    (h2 : ad.hasTextStream = true) (h3 : ad.hasSse = true) (cm : WModule) :
    (emptyTree cm = true → linkWeb ad cm = Except.error LinkErr.emptyModule) ∧
    (emptyTree cm = false → ∃ f, linkWeb ad cm = Except.ok f) ∧
    (emptyTree cm = true → featureLink ad cm = Except.ok none) := by
  obtain ⟨o, ho, hiff⟩ := featureLink_full ad h1 h2 h3 (sizeOf cm) cm (Nat.le_refl _)
  refine ⟨?_, ?_, ?_⟩
  · intro he
    have : o = none := hiff.2 he
    subst this
    simp [linkWeb, ho]
  · intro he
    cases o with
    | none => exact absurd (hiff.1 rfl) (by simp [he])
    | some f => exact ⟨f, by simp [linkWeb, ho]⟩
  · intro he
    have : o = none := hiff.2 he
    subst this
    exact ho

/-- C10 witness: an application whose single controller has no methods
is a hard link failure, while adding one `GET` method makes it link. -/
theorem link_empty_module_witness :
    linkWeb ⟨true, true, true⟩ (WModule.mk [⟨[]⟩] [])
        = Except.error LinkErr.emptyModule ∧
    ∃ f, linkWeb ⟨true, true, true⟩ (WModule.mk [⟨[⟨"h", "GET"⟩]⟩] []) = Except.ok f := by
  constructor
  · exact (link_empty_module ⟨true, true, true⟩ rfl rfl rfl
      (WModule.mk [⟨[]⟩] [])).1 rfl
  · exact (link_empty_module ⟨true, true, true⟩ rfl rfl rfl
      (WModule.mk [⟨[⟨"h", "GET"⟩]⟩] [])).2.1 rfl

/-! ### Async streaming dispatch: `Linker.linkAsyncStream`

The endpoint returned by `linkAsyncStream(cm, type)` awaits the handler,
checks the returned value for `Symbol.asyncIterator` (throwing an error
naming the method when absent), then drains the iterable, writing each
yielded value through the channel selected by `type`: `stream.write` for
`"raw"`, `stream.writeln` for `"string"`, `stream.writeSSE` for `"sse"`.
The surrounding `try`/`catch` delivers any error to the method's error
handler when present and rethrows otherwise. -/

/-- The value a dispatched "-async" handler returned: a plain value
(no `Symbol.asyncIterator` property) or an async iterable together with
the values it yields, in order. -/
inductive HRet where
  | plain (v : Nat)
  | aiter (vs : List Nat)
  deriving DecidableEq, Repr

/-- Dispatch-time web errors. -/
inductive WebErr where
  | notAsyncGen (name : String)
  deriving DecidableEq, Repr

/-- One channel write performed on the streaming API. -/
inductive WriteEv where
  | write (v : Nat)
  | writeln (v : Nat)
  | writeSSE (v : Nat)
  deriving DecidableEq, Repr

/-- Outcome of one async-stream dispatch. -/
inductive DispOut where
  | completed
  | handled (h : Nat) (e : WebErr)
  | thrown (e : WebErr)
  deriving DecidableEq, Repr

/-- The channel-specific write call for the given channel. -/
def chanWrite : Chan → Nat → WriteEv
  | Chan.raw, v => WriteEv.write v
  | Chan.str, v => WriteEv.writeln v
  | Chan.sse, v => WriteEv.writeSSE v

/-- The `for await` loop: one channel-specific write per yielded value,
in yield order. -/
def drain (chan : Chan) : List Nat → List WriteEv
  | [] => []
  | v :: vs => chanWrite chan v :: drain chan vs

/-- The `try` body: the async-iterator check, then the drain loop. -/
def asyncBody (name : String) (chan : Chan) : HRet → List WriteEv × Option WebErr
  | HRet.plain _ => ([], some (WebErr.notAsyncGen name))
  | HRet.aiter vs => (drain chan vs, none)

/-- The `catch` clause: deliver to the method's error handler when
present, rethrow otherwise. -/
def catchWith (eh : Option Nat) : List WriteEv × Option WebErr → List WriteEv × DispOut
  | (ws, none) => (ws, DispOut.completed)
  | (ws, some e) =>
    match eh with
    | some h => (ws, DispOut.handled h e)
    | none => (ws, DispOut.thrown e)

/-- The dispatch of an "-async" streaming endpoint. -/
def linkAsyncStreamRun (name : String) (chan : Chan) (eh : Option Nat)
    (ret : HRet) : List WriteEv × DispOut :=
  catchWith eh (asyncBody name chan ret)

theorem drain_map (chan : Chan) (vs : List Nat) :
    drain chan vs = vs.map (chanWrite chan) := by
  induction vs with
  | nil => rfl
  | cons v vs ih => simp [drain, ih]

/-- C7.  Dispatching an "-async" streaming method whose handler returned
a plain (non-async-iterable) value performs no write and fails with an
error naming the method, delivered to the method's error handler when
one is present and rethrown otherwise; a handler returning an async
iterable yielding `vs` performs exactly one channel-specific write per
yielded value in yield order — `write` for the raw channel, `writeln`
for the text channel, `writeSSE` for the SSE channel — and completes. -/
theorem async_stream_dispatch (name : String) (eh : Option Nat) :
    (∀ chan v, (linkAsyncStreamRun name chan eh (HRet.plain v)).1 = [] ∧
      (linkAsyncStreamRun name chan eh (HRet.plain v)).2 =
        (match eh with
         | some h => DispOut.handled h (WebErr.notAsyncGen name)
         | none => DispOut.thrown (WebErr.notAsyncGen name))) ∧
    (∀ vs, (linkAsyncStreamRun name Chan.raw eh (HRet.aiter vs)).1
      = vs.map WriteEv.write) ∧
    (∀ vs, (linkAsyncStreamRun name Chan.str eh (HRet.aiter vs)).1
      = vs.map WriteEv.writeln) ∧
    (∀ vs, (linkAsyncStreamRun name Chan.sse eh (HRet.aiter vs)).1
      = vs.map WriteEv.writeSSE) ∧
    (∀ chan vs, (linkAsyncStreamRun name chan eh (HRet.aiter vs)).1.length
      = vs.length) ∧
    (∀ chan vs, (linkAsyncStreamRun name chan eh (HRet.aiter vs)).2
      = DispOut.completed) := by
  refine ⟨?_, ?_, ?_, ?_, ?_, ?_⟩
  · intro chan v
    cases eh <;> simp [linkAsyncStreamRun, asyncBody, catchWith]
  · intro vs
    simp [linkAsyncStreamRun, asyncBody, catchWith, drain_map, chanWrite]
  · intro vs
    simp [linkAsyncStreamRun, asyncBody, catchWith, drain_map, chanWrite]
  · intro vs
    simp [linkAsyncStreamRun, asyncBody, catchWith, drain_map, chanWrite]
  · intro chan vs
    simp [linkAsyncStreamRun, asyncBody, catchWith, drain_map]
  · intro chan vs
    simp [linkAsyncStreamRun, asyncBody, catchWith]

/-! ## Lifecycle hooks

Embedding of `src/core/application/hooks.ts`.  Each of `onModuleInit`,
`onModuleActivate`, `onModuleShutdown` runs the same traversal: visit
the compiled module — awaiting its instance's hook when the instance
implements it — then visit each import, in declared order.  The three
functions differ only in which hook method they consult, embedded here
as a selector.  A compiled module's instance and each compiled
controller's instance may or may not implement the hooks; the traversal
reads `m.handle` (the module instance) and `m.imports` only. -/

/-- A compiled controller, with its identity and which hooks its
instance implements. -/
structure HController where
  cid : Nat
  ctlInit : Bool
  ctlActivate : Bool
  ctlShutdown : Bool
  deriving DecidableEq, Repr

/-- A compiled module tree, with its identity, which hooks its instance
implements, its compiled controllers and its compiled imports. -/
inductive HModule where
  | mk (mid : Nat) (mdlInit mdlActivate mdlShutdown : Bool)
      (controllers : List HController) (imports : List HModule)
  deriving Repr

/-- Which lifecycle dispatch is running. -/
inductive HookSel where
  | init
  | activate
  | shutdown
  deriving DecidableEq, Repr

/-- Module identity accessor. -/
def HModule.mid : HModule → Nat
  | HModule.mk i _ _ _ _ _ => i

/-- Whether the module instance implements the selected hook. -/
def HModule.implements : HookSel → HModule → Bool
  | HookSel.init, HModule.mk _ b _ _ _ _ => b
  | HookSel.activate, HModule.mk _ _ b _ _ _ => b
  | HookSel.shutdown, HModule.mk _ _ _ b _ _ => b

/-- The `visit` traversal of `onModuleInit`/`onModuleActivate`/
`onModuleShutdown`: the sequence of instances whose hook is awaited, in
invocation order — the module's own instance if it implements the hook,
then each import's traversal, in declared order. -/
def hookCalls (sel : HookSel) : HModule → List Nat
  | m@(HModule.mk mid _ _ _ _ imps) =>
    (if m.implements sel then [mid] else []) ++ hookCallsList imps
where
  hookCallsList : List HModule → List Nat
    | [] => []
    | im :: ims => hookCalls sel im ++ hookCallsList ims

/-- Depth-first preorder of the module tree: root first, then the
preorder of each import in declared order. -/
def preMods : HModule → List HModule
  | m@(HModule.mk _ _ _ _ _ imps) => m :: preModsList imps
where
  preModsList : List HModule → List HModule
    | [] => []
    | im :: ims => preMods im ++ preModsList ims

/-- C3 counterexample: a compiled tree whose only controller implements
`onModuleInit` (and the other hooks); no lifecycle dispatch ever invokes
it — the dispatch sequence is empty although the controller instance
implements the hook. -/
theorem hooks_skip_controllers :
    hookCalls HookSel.init
        (HModule.mk 0 false false false [⟨5, true, true, true⟩] []) = [] ∧
    hookCalls HookSel.activate
        (HModule.mk 0 false false false [⟨5, true, true, true⟩] []) = [] ∧
    hookCalls HookSel.shutdown
        (HModule.mk 0 false false false [⟨5, true, true, true⟩] []) = [] := by
  exact ⟨rfl, rfl, rfl⟩

/-- C3 (amended).  Each lifecycle dispatch invokes the hook exactly on
the module instances that implement it, in depth-first order — root
first, then each import in declared order, each hook awaited before the
next — and on no other instance; controller instances are not visited. -/
theorem hooks_depth_first_modules_only (sel : HookSel) :
    ∀ m : HModule, hookCalls sel m
      = ((preMods m).filter (HModule.implements sel)).map HModule.mid := by
  suffices h : ∀ (n : Nat) (m : HModule), sizeOf m ≤ n →
      hookCalls sel m
        = ((preMods m).filter (HModule.implements sel)).map HModule.mid by
    intro m
    exact h (sizeOf m) m (Nat.le_refl _)
  intro n
  induction n with
  | zero =>
    intro m hm
    cases m with
    | mk mid i a s ctrls imps =>
      rw [HModule.mk.sizeOf_spec] at hm
      omega
  | succ n ih =>
    intro m hm
    cases m with
    | mk mid i a s ctrls imps =>
      have hsub : ∀ im ∈ imps, sizeOf im ≤ n := by
        intro im him
        have hlt := List.sizeOf_lt_of_mem him
        have hspec := HModule.mk.sizeOf_spec mid i a s ctrls imps
        omega
      have hlist : ∀ ms : List HModule, (∀ im ∈ ms, sizeOf im ≤ n) →
          hookCalls.hookCallsList sel ms
            = ((preMods.preModsList ms).filter (HModule.implements sel)).map HModule.mid := by
        intro ms
        induction ms with
        | nil => intro _; rfl
        | cons im ims ihl =>
          intro hms
          have h1 := ih im (hms im (by simp))
          have h2 := ihl (fun x hx => hms x (by simp [hx]))
          simp [hookCalls.hookCallsList, preMods.preModsList, h1, h2,
            List.filter_append]
      cases himpl : HModule.implements sel (HModule.mk mid i a s ctrls imps) with
      | true =>
        simp [hookCalls, preMods, himpl, hlist imps hsub, HModule.mid]
      | false =>
        simp [hookCalls, preMods, himpl, hlist imps hsub]

/-! ## Graph builder

Embedding of `src/core/application/graph-builder.ts`.  Classes are
identities (naturals); `readMetadataObject` is the environment mapping a
class to its decorator metadata.  `graphBuilder(ctr)` creates a fresh
`WeakMap` memo and calls `visitModule`: a memo hit returns the cached
node; otherwise missing or non-module metadata throws; otherwise the
node is built — `imports` by recursively visiting each declared import
in order, then `controllers` by visiting each controller (throwing on
missing gateway metadata) — and only then is the node recorded in the
memo.  The unbounded JavaScript recursion is indexed by fuel
(`BRes.out` = the recursion exceeds the given depth); node allocations
are logged with fresh identities (`nid`), modelling object identity. -/

/-- Controller decorator metadata: the gateway marker and the names of
the prototype methods that carry method metadata. -/
structure CtrlMeta where
  isGateway : Bool
  methodNames : List String

/-- Module decorator metadata. -/
structure ModMeta where
  isModule : Bool
  imports : List Nat
  controllers : List Nat

/-- The metadata environment: per-class module and gateway metadata. -/
structure GEnv where
  mods : Nat → Option ModMeta
  gates : Nat → Option CtrlMeta

/-- A method node. -/
structure GMethodNode where
  name : String
  deriving DecidableEq, Repr

/-- A controller node. -/
structure GCtrlNode where
  cid : Nat
  methods : List GMethodNode
  deriving DecidableEq, Repr

/-- A module node: its allocation identity `nid` (modelling JavaScript
object identity), its class, and its resolved children. -/
inductive GModNode where
  | mk (nid : Nat) (ctr : Nat) (imports : List GModNode)
      (controllers : List GCtrlNode)
  deriving Repr

/-- Allocation identity accessor. -/
def GModNode.nid : GModNode → Nat
  | GModNode.mk i _ _ _ => i

/-- Module class accessor. -/
def GModNode.ctr : GModNode → Nat
  | GModNode.mk _ c _ _ => c

/-- Imports accessor. -/
def GModNode.imports : GModNode → List GModNode
  | GModNode.mk _ _ ims _ => ims

@[simp] theorem GModNode.gnid_mk (i c : Nat) (ims : List GModNode)
    (cs : List GCtrlNode) : (GModNode.mk i c ims cs).nid = i := rfl

@[simp] theorem GModNode.gctr_mk (i c : Nat) (ims : List GModNode)
    (cs : List GCtrlNode) : (GModNode.mk i c ims cs).ctr = c := rfl

@[simp] theorem GModNode.gimports_mk (i c : Nat) (ims : List GModNode)
    (cs : List GCtrlNode) : (GModNode.mk i c ims cs).imports = ims := rfl

/-- Errors thrown by the graph builder. -/
inductive BErr where
  | notAModule (ctr : Nat)
  | notAController (ctr : Nat)
  deriving DecidableEq, Repr

/-- Result of a fuel-bounded run: recursion depth exhausted, a thrown
error, or a value. -/
inductive BRes (α : Type) where
  | out
  | err (e : BErr)
  | ok (v : α)

/-- Association-list lookup with front-insertion shadowing — the memo
`WeakMap`. -/
def mlookup {α : Type} : List (Nat × α) → Nat → Option α
  | [], _ => none
  | (k, v) :: rest, c => if k = c then some v else mlookup rest c

/-- Mirror of `visitController`: missing or non-gateway metadata throws; otherwise
the controller node with its discovered methods. -/
def visitController (env : GEnv) (c : Nat) : Except BErr GCtrlNode :=
  match env.gates c with
  | none => Except.error (BErr.notAController c)
  | some meta =>
    if meta.isGateway then
      Except.ok ⟨c, meta.methodNames.map (fun nm => ⟨nm⟩)⟩
    else Except.error (BErr.notAController c)

/-- The controllers of a module, in declared order. -/
def visitControllers (env : GEnv) : List Nat → Except BErr (List GCtrlNode)
  | [] => Except.ok []
  | c :: cs =>
    match visitController env c with
    | Except.error e => Except.error e
    | Except.ok cn =>
      match visitControllers env cs with
      | Except.error e => Except.error e
      | Except.ok cns => Except.ok (cn :: cns)

/-- Builder state: the memo `WeakMap`, the allocation log
(class, allocated `nid`) in allocation order, and the fresh-identity
counter. -/
structure GState where
  memo : List (Nat × GModNode)
  alloc : List (Nat × Nat)
  next : Nat

/-- Mirror of `meta.imports.map(visitModule)`: visit each import in order,
threading the state; errors and fuel exhaustion propagate. -/
def visitFold (f : Nat → GState → BRes (GModNode × GState)) :
    List Nat → GState → BRes (List GModNode × GState)
  | [], s => BRes.ok ([], s)
  | c :: cs, s =>
    match f c s with
    | BRes.out => BRes.out
    | BRes.err e => BRes.err e
    | BRes.ok (n, s') =>
      match visitFold f cs s' with
      | BRes.out => BRes.out
      | BRes.err e => BRes.err e
      | BRes.ok (ns, s'') => BRes.ok (n :: ns, s'')

/-- Mirror of `visitModule`: memo hit returns the cached node; missing or
non-module metadata throws; otherwise imports are visited recursively,
controllers are visited, the node is allocated with a fresh identity and
recorded in the memo only after its imports were processed. -/
def visitModule (env : GEnv) : Nat → Nat → GState → BRes (GModNode × GState)
  | 0, _, _ => BRes.out
  | fuel + 1, c, s =>
    match mlookup s.memo c with
    | some node => BRes.ok (node, s)
    | none =>
      match env.mods c with
      | none => BRes.err (BErr.notAModule c)
      | some meta =>
        if meta.isModule then
          match visitFold (visitModule env fuel) meta.imports s with
          | BRes.out => BRes.out
          | BRes.err e => BRes.err e
          | BRes.ok (ins, s1) =>
            match visitControllers env meta.controllers with
            | Except.error e => BRes.err e
            | Except.ok cns =>
              BRes.ok (GModNode.mk s1.next c ins cns,
                ⟨(c, GModNode.mk s1.next c ins cns) :: s1.memo,
                 s1.alloc ++ [(c, s1.next)], s1.next + 1⟩)
        else BRes.err (BErr.notAModule c)

/-- Mirror of `graphBuilder(root)`: a fresh memo, empty allocation log, fresh
identities from `0`. -/
def graphBuilderF (env : GEnv) (fuel root : Nat) : BRes (GModNode × GState) :=
  visitModule env fuel root ⟨[], [], 0⟩

/-- A three-module import cycle: module `0` imports `1`, `1` imports
`2`, `2` imports `0`; no controllers. -/
def envCyc : GEnv :=
  ⟨fun c =>
    if c = 0 then some ⟨true, [1], []⟩
    else if c = 1 then some ⟨true, [2], []⟩
    else if c = 2 then some ⟨true, [0], []⟩
    else none,
   fun _ => none⟩

theorem envCyc_mods0 : envCyc.mods 0 = some ⟨true, [1], []⟩ := rfl

theorem envCyc_mods1 : envCyc.mods 1 = some ⟨true, [2], []⟩ := rfl

theorem envCyc_mods2 : envCyc.mods 2 = some ⟨true, [0], []⟩ := rfl

theorem envCyc_out (fuel : Nat) :
    visitModule envCyc fuel 0 ⟨[], [], 0⟩ = BRes.out ∧
    visitModule envCyc fuel 1 ⟨[], [], 0⟩ = BRes.out ∧
    visitModule envCyc fuel 2 ⟨[], [], 0⟩ = BRes.out := by
  induction fuel with
  | zero => exact ⟨rfl, rfl, rfl⟩
  | succ n ih =>
    obtain ⟨h0, h1, h2⟩ := ih
    refine ⟨?_, ?_, ?_⟩
    · simp [visitModule, envCyc_mods0, mlookup, visitFold, h1]
    · simp [visitModule, envCyc_mods1, mlookup, visitFold, h2]
    · simp [visitModule, envCyc_mods2, mlookup, visitFold, h0]

/-- C1 counterexample: on the import cycle `0 → 1 → 2 → 0`,
`graphBuilder(0)` does not terminate with a circular-dependency error
(nor with any error or node tree): at recursion depth `1000` — and still
at `1000000` — the traversal is still descending, having produced
nothing; there is no cycle check, and the memo is only written after a
module's imports complete, so it never interrupts the cycle. -/
theorem graph_builder_cycle_diverges :
    graphBuilderF envCyc 1000 0 = BRes.out ∧
    graphBuilderF envCyc 1000000 0 = BRes.out :=
  ⟨(envCyc_out 1000).1, (envCyc_out 1000000).1⟩

/-- C1 (amended).  The graph builder performs no cycle detection: for
the import cycle `0 → 1 → 2 → 0`, visiting any of the three modules from
a fresh builder state exhausts every recursion-depth bound, producing
neither a `CircularDependencyError` (no such error exists in the
builder), nor any other error, nor a node tree. -/
theorem graph_builder_no_cycle_detection :
    ∀ fuel,
      visitModule envCyc fuel 0 ⟨[], [], 0⟩ = BRes.out ∧
      visitModule envCyc fuel 1 ⟨[], [], 0⟩ = BRes.out ∧
      visitModule envCyc fuel 2 ⟨[], [], 0⟩ = BRes.out :=
  envCyc_out

/-! ### Module identity and memoization

`visitModule` maintains: the allocation log holds at most one node per
class; the memo and the log agree; memo entries record their own class
and have their imports registered; allocated identities are fresh and
distinct.  Acyclicity of the declared import graph is witnessed by a
rank function decreasing along imports. -/

/-- Builder-state invariant. -/
def InvG (s : GState) : Prop :=
  (s.alloc.map Prod.fst).Nodup ∧
  (∀ c, (mlookup s.memo c).isSome = true ↔ c ∈ s.alloc.map Prod.fst) ∧
  (∀ c nd, mlookup s.memo c = some nd → nd.ctr = c ∧
    ∀ im ∈ nd.imports, mlookup s.memo im.ctr = some im) ∧
  (∀ c nd, mlookup s.memo c = some nd → nd.nid < s.next) ∧
  (∀ c1 c2 nd1 nd2, mlookup s.memo c1 = some nd1 → mlookup s.memo c2 = some nd2 →
    nd1.nid = nd2.nid → c1 = c2)

/-- The declared import graph is acyclic, witnessed by a rank function
strictly decreasing along import edges. -/
def Acyc (env : GEnv) (rk : Nat → Nat) : Prop :=
  ∀ c meta, env.mods c = some meta → ∀ c' ∈ meta.imports, rk c' < rk c

/-- Post-condition of a successful `visitModule` run. -/
def VisitPost (rk : Nat → Nat) (c : Nat) (s s' : GState) (n : GModNode) : Prop :=
  InvG s' ∧
  (∀ k v, mlookup s.memo k = some v → mlookup s'.memo k = some v) ∧
  s.next ≤ s'.next ∧
  mlookup s'.memo n.ctr = some n ∧
  n.ctr = c ∧
  (∀ k, (mlookup s'.memo k).isSome = true →
    (mlookup s.memo k).isSome = true ∨ rk k ≤ rk c)

theorem visitModule_post (env : GEnv) (rk : Nat → Nat) (hacyc : Acyc env rk) :
    ∀ fuel c s n s', InvG s → visitModule env fuel c s = BRes.ok (n, s') →
      VisitPost rk c s s' n := by
  intro fuel
  induction fuel with
  | zero =>
    intro c s n s' _ hok
    simp [visitModule] at hok
  | succ fuel ih =>
    -- the list traversal over the declared imports
    have hfold : ∀ cs s₀, InvG s₀ → ∀ ns s₁,
        visitFold (visitModule env fuel) cs s₀ = BRes.ok (ns, s₁) →
        InvG s₁ ∧
        (∀ k v, mlookup s₀.memo k = some v → mlookup s₁.memo k = some v) ∧
        s₀.next ≤ s₁.next ∧
        (∀ nd ∈ ns, mlookup s₁.memo nd.ctr = some nd) ∧
        (∀ k, (mlookup s₁.memo k).isSome = true →
          (mlookup s₀.memo k).isSome = true ∨ ∃ c' ∈ cs, rk k ≤ rk c') := by
      intro cs
      induction cs with
      | nil =>
        intro s₀ hinv₀ ns s₁ h
        simp [visitFold] at h
        obtain ⟨hns, hs⟩ := h
        subst hns; subst hs
        exact ⟨hinv₀, fun _ _ hv => hv, Nat.le_refl _, by simp, fun k hk => Or.inl hk⟩
      | cons c' cs' ihl =>
        intro s₀ hinv₀ ns s₁ h
        cases hv : visitModule env fuel c' s₀ with
        | out => simp [visitFold, hv] at h
        | err e => simp [visitFold, hv] at h
        | ok p =>
          obtain ⟨n₀, s₀'⟩ := p
          have hpost := ih c' s₀ n₀ s₀' hinv₀ hv
          obtain ⟨hinv₀', hmono₀, hnext₀, hreg₀, hctr₀, hrank₀⟩ := hpost
          cases hf : visitFold (visitModule env fuel) cs' s₀' with
          | out => simp [visitFold, hv, hf] at h
          | err e => simp [visitFold, hv, hf] at h
          | ok q =>
            obtain ⟨ns', s₁'⟩ := q
            simp [visitFold, hv, hf] at h
            obtain ⟨hns, hs⟩ := h
            subst hns; subst hs
            obtain ⟨hinv₁, hmono₁, hnext₁, hreg₁, hrank₁⟩ := ihl s₀' hinv₀' ns' s₁' hf
            refine ⟨hinv₁, fun k v hk => hmono₁ k v (hmono₀ k v hk),
              Nat.le_trans hnext₀ hnext₁, ?_, ?_⟩
            · intro nd hnd
              rcases List.mem_cons.1 hnd with hnd | hnd
              · subst hnd
                exact hmono₁ _ _ hreg₀
              · exact hreg₁ nd hnd
            · intro k hk
              rcases hrank₁ k hk with hk' | ⟨c'', hc'', hr⟩
              · rcases hrank₀ k hk' with hk'' | hr
                · exact Or.inl hk''
                · exact Or.inr ⟨c', by simp, hr⟩
              · exact Or.inr ⟨c'', by simp [hc''], hr⟩
    intro c s n s' hinv hok
    rw [visitModule] at hok
    cases hm : mlookup s.memo c with
    | some node =>
      rw [hm] at hok
      simp at hok
      obtain ⟨hn, hs⟩ := hok
      subst hn; subst hs
      obtain ⟨ha, hb, hc', hd, he⟩ := hinv
      have hcc := (hc' c node hm).1
      exact ⟨⟨ha, hb, hc', hd, he⟩, fun _ _ hv => hv, Nat.le_refl _,
        by rw [hcc]; exact hm, hcc, fun k hk => Or.inl hk⟩
    | none =>
      rw [hm] at hok
      cases hmeta : env.mods c with
      | none => rw [hmeta] at hok; simp at hok
      | some meta =>
        rw [hmeta] at hok
        simp only [] at hok
        by_cases hmod : meta.isModule
        · rw [if_pos hmod] at hok
          cases hfr : visitFold (visitModule env fuel) meta.imports s with
          | out => rw [hfr] at hok; simp at hok
          | err e => rw [hfr] at hok; simp at hok
          | ok p =>
            obtain ⟨ins, s1⟩ := p
            rw [hfr] at hok
            cases hcs : visitControllers env meta.controllers with
            | error e => rw [hcs] at hok; simp at hok
            | ok cns =>
              rw [hcs] at hok
              simp at hok
              obtain ⟨hn, hs⟩ := hok
              obtain ⟨hinv1, hmono1, hnext1, hreg1, hrank1⟩ :=
                hfold meta.imports s hinv ins s1 hfr
              -- the allocated class is not yet memoized after the imports
              have hcnot : (mlookup s1.memo c).isSome = false := by
                cases hcase : (mlookup s1.memo c).isSome with
                | false => rfl
                | true =>
                  rcases hrank1 c hcase with hks | ⟨c', hc', hr⟩
                  · rw [hm] at hks; simp at hks
                  · exact absurd hr (Nat.not_le.2 (hacyc c meta hmeta c' hc'))
              obtain ⟨ha1, hb1, hc1, hd1, he1⟩ := hinv1
              have hcalloc : c ∉ s1.alloc.map Prod.fst := by
                intro hmem
                rw [← hb1 c] at hmem
                rw [hcnot] at hmem
                exact Bool.noConfusion hmem
              subst hn; subst hs
              refine ⟨⟨?_, ?_, ?_, ?_, ?_⟩, ?_, ?_, ?_, ?_, ?_⟩
              · -- allocation log still has one node per class
                simp only [List.map_append, List.map_cons, List.map_nil]
                rw [List.nodup_append]
                exact ⟨ha1, List.nodup_singleton c,
                  fun a hha hhb => by simp at hhb; subst hhb; exact hcalloc hha⟩
              · intro k
                by_cases hkc : k = c
                · simp [mlookup, hkc]
                · simp [mlookup, Ne.symm hkc, hb1 k, hkc]
              · intro k nd hk
                by_cases hkc : k = c
                · simp [mlookup, hkc] at hk
                  refine ⟨by rw [← hk]; simp [GModNode.ctr, hkc], ?_⟩
                  intro im him
                  rw [← hk] at him
                  simp [GModNode.imports] at him
                  have hreg := hreg1 im him
                  have himc : im.ctr ≠ c := by
                    intro hh
                    rw [hh] at hreg
                    rw [hreg] at hcnot
                    simp at hcnot
                  simp [mlookup, Ne.symm himc]
                  exact hreg
                · simp [mlookup, Ne.symm hkc] at hk
                  obtain ⟨hctr, himps⟩ := hc1 k nd hk
                  refine ⟨hctr, ?_⟩
                  intro im him
                  have hreg := himps im him
                  have himc : im.ctr ≠ c := by
                    intro hh
                    rw [hh] at hreg
                    rw [hreg] at hcnot
                    simp at hcnot
                  simp [mlookup, Ne.symm himc]
                  exact hreg
              · intro k nd hk
                by_cases hkc : k = c
                · simp [mlookup, hkc] at hk
                  rw [← hk]
                  simp [GModNode.nid]
                · simp [mlookup, Ne.symm hkc] at hk
                  exact Nat.lt_succ_of_lt (hd1 k nd hk)
              · intro k1 k2 nd1 nd2 hk1 hk2 hnid
                by_cases h1c : k1 = c <;> by_cases h2c : k2 = c
                · rw [h1c, h2c]
                · simp [mlookup, h1c] at hk1
                  simp [mlookup, Ne.symm h2c] at hk2
                  rw [← hk1] at hnid
                  simp [GModNode.nid] at hnid
                  have hb := hd1 k2 nd2 hk2
                  simp [GModNode.nid] at hb
                  omega
                · simp [mlookup, h2c] at hk2
                  simp [mlookup, Ne.symm h1c] at hk1
                  rw [← hk2] at hnid
                  simp [GModNode.nid] at hnid
                  have hb := hd1 k1 nd1 hk1
                  simp [GModNode.nid] at hb
                  omega
                · simp [mlookup, Ne.symm h1c] at hk1
                  simp [mlookup, Ne.symm h2c] at hk2
                  exact he1 k1 k2 nd1 nd2 hk1 hk2 hnid
              · intro k v hk
                have hk1 := hmono1 k v hk
                have hkc : k ≠ c := by
                  intro hh
                  subst hh
                  rw [hk1] at hcnot
                  simp at hcnot
                simp [mlookup, Ne.symm hkc]
                exact hk1
              · exact Nat.le_trans hnext1 (Nat.le_succ _)
              · simp [GModNode.ctr, mlookup]
              · simp [GModNode.ctr]
              · intro k hk
                by_cases hkc : k = c
                · exact Or.inr (by rw [hkc])
                · simp [mlookup, Ne.symm hkc] at hk
                  rcases hrank1 k hk with hks | ⟨c', hc', hr⟩
                  · exact Or.inl hks
                  · exact Or.inr (Nat.le_of_lt
                      (Nat.lt_of_le_of_lt hr (hacyc c meta hmeta c' hc')))
        · rw [if_neg hmod] at hok
          simp at hok

/-- Node `a` occurs in the module tree `n` (at the root or below an import
site). -/
inductive SubMod : GModNode → GModNode → Prop where
  | refl (n : GModNode) : SubMod n n
  | imp {a im : GModNode} (n : GModNode) (him : im ∈ n.imports)
      (h : SubMod a im) : SubMod a n

theorem SubMod.trans {a b c : GModNode} (h1 : SubMod a b) (h2 : SubMod b c) :
    SubMod a c := by
  induction h2 with
  | refl => exact h1
  | imp n him _ ih => exact SubMod.imp n him ih

theorem SubMod.size_le {a b : GModNode} (h : SubMod a b) : sizeOf a ≤ sizeOf b := by
  induction h with
  | refl => exact Nat.le_refl _
  | imp n him h ih =>
    cases n with
    | mk i c ims cs =>
      simp [GModNode.imports] at him
      have hlt := List.sizeOf_lt_of_mem him
      have hspec := GModNode.mk.sizeOf_spec i c ims cs
      omega

/-- Every node occurring in a memo-registered tree is itself the memo
entry of its class. -/
theorem sub_registered (s : GState)
    (hclosed : ∀ c nd, mlookup s.memo c = some nd → nd.ctr = c ∧
      ∀ im ∈ nd.imports, mlookup s.memo im.ctr = some im) :
    ∀ a n, SubMod a n → mlookup s.memo n.ctr = some n →
      mlookup s.memo a.ctr = some a := by
  intro a n h
  induction h with
  | refl => exact id
  | imp n him _ ih => intro hn; exact ih ((hclosed _ _ hn).2 _ him)

theorem InvG_init : InvG ⟨[], [], 0⟩ := by
  refine ⟨List.nodup_nil, ?_, ?_, ?_, ?_⟩
  · intro c; simp [mlookup]
  · intro c nd h; simp [mlookup] at h
  · intro c nd h; simp [mlookup] at h
  · intro c1 c2 nd1 nd2 h1; simp [mlookup] at h1

/-- Graph half of the identity claim: a successful build of an acyclic
graph of imports allocates at most one node per module class, and any two
occurrences in the result tree sharing a class (or an identity) are the
same node. -/
theorem graphBuilder_unique (env : GEnv) (rk : Nat → Nat) (fuel root : Nat)
    (n : GModNode) (s' : GState) (hacyc : Acyc env rk)
    (hok : graphBuilderF env fuel root = BRes.ok (n, s')) :
    (s'.alloc.map Prod.fst).Nodup ∧
    (∀ a b, SubMod a n → SubMod b n → (a.ctr = b.ctr ∨ a.nid = b.nid) → a = b) := by
  have hpost := visitModule_post env rk hacyc fuel root ⟨[], [], 0⟩ n s' InvG_init hok
  obtain ⟨⟨ha, hb, hc, hd, he⟩, _, _, hreg, _, _⟩ := hpost
  refine ⟨ha, ?_⟩
  intro a b hsa hsb hab
  have hra := sub_registered s' hc a n hsa hreg
  have hrb := sub_registered s' hc b n hsb hreg
  rcases hab with hctr | hnid
  · rw [hctr] at hra
    rw [hra] at hrb
    exact Option.some.inj hrb
  · have hcc := he a.ctr b.ctr a b hra hrb hnid
    rw [hcc] at hra
    rw [hra] at hrb
    exact Option.some.inj hrb

/-! ### Compiler memoization

Modelled from the spec: `compiler.ts` is not under `src/` — only
`compiler_test.ts`, re-exports and callers are.  Spec §4.3:
"`compile(ModuleNode) -> Promise<CompiledModule>` ... Processes a module
at most once per compile call (memoized by node identity, separate from
the Injector memo) — enables diamond-shaped import graphs without
duplicate instantiation work. ... recursively compile each imported
module"; §3: the compiled tree is structurally isomorphic to the node
tree.  Instantiation through the injector is abstracted away; `srcNid`
is the source node's object identity, used as the memo key, and
`calloc` logs each constructed `CompiledModule` as (source identity,
module class). -/

/-- A compiled module: the source node's identity, its class, and the
compiled imports. -/
inductive CompiledMod where
  | mk (srcNid : Nat) (ctr : Nat) (imports : List CompiledMod)

/-- Source-identity accessor. -/
def CompiledMod.srcNid : CompiledMod → Nat
  | CompiledMod.mk k _ _ => k

/-- Class accessor. -/
def CompiledMod.ctr : CompiledMod → Nat
  | CompiledMod.mk _ c _ => c

/-- Compiled-imports accessor. -/
def CompiledMod.imports : CompiledMod → List CompiledMod
  | CompiledMod.mk _ _ ims => ims

@[simp] theorem CompiledMod.csrcNid_mk (k c : Nat) (ims : List CompiledMod) :
    (CompiledMod.mk k c ims).srcNid = k := rfl

@[simp] theorem CompiledMod.cctr_mk (k c : Nat) (ims : List CompiledMod) :
    (CompiledMod.mk k c ims).ctr = c := rfl

@[simp] theorem CompiledMod.cimports_mk (k c : Nat) (ims : List CompiledMod) :
    (CompiledMod.mk k c ims).imports = ims := rfl

/-- Compiler state: the node-identity-keyed memo and the construction
log. -/
structure CplState where
  cmemo : List (Nat × CompiledMod)
  calloc : List (Nat × Nat)

/-- Mirror of `compile`: a memo hit returns the already-compiled module; otherwise
the imports are compiled recursively in declared order and the compiled
module is recorded under the source node's identity. -/
def compileMod : GModNode → CplState → CompiledMod × CplState
  | GModNode.mk nid c ims _, st =>
    match mlookup st.cmemo nid with
    | some cm => (cm, st)
    | none =>
      let r := compileModList ims st
      (CompiledMod.mk nid c r.1,
       ⟨(nid, CompiledMod.mk nid c r.1) :: r.2.cmemo, r.2.calloc ++ [(nid, c)]⟩)
where
  compileModList : List GModNode → CplState → List CompiledMod × CplState
    | [], st => ([], st)
    | m :: ms, st =>
      let r := compileMod m st
      let rs := compileModList ms r.2
      (r.1 :: rs.1, rs.2)

/-- Node `ca` occurs in the compiled tree `cb`. -/
inductive CSub : CompiledMod → CompiledMod → Prop where
  | refl (c : CompiledMod) : CSub c c
  | imp {a im : CompiledMod} (c : CompiledMod) (him : im ∈ c.imports)
      (h : CSub a im) : CSub a c

/-- Tree coherence: occurrences sharing a class or an identity are the
same node (established by `graphBuilder_unique`). -/
def Coh (t : GModNode) : Prop :=
  ∀ a b, SubMod a t → SubMod b t → (a.ctr = b.ctr ∨ a.nid = b.nid) → a = b

/-- Compiler-state invariant relative to the source tree `t`. -/
def InvC (t : GModNode) (st : CplState) : Prop :=
  (st.calloc.map Prod.fst).Nodup ∧
  (∀ k, (mlookup st.cmemo k).isSome = true ↔ k ∈ st.calloc.map Prod.fst) ∧
  (∀ k cm, mlookup st.cmemo k = some cm → cm.srcNid = k ∧
    (∃ a, SubMod a t ∧ a.nid = k ∧ a.ctr = cm.ctr) ∧
    ∀ cim ∈ cm.imports, mlookup st.cmemo cim.srcNid = some cim) ∧
  (∀ p ∈ st.calloc, ∃ a, SubMod a t ∧ a.nid = p.1 ∧ a.ctr = p.2)

theorem InvC_init (t : GModNode) : InvC t ⟨[], []⟩ := by
  refine ⟨List.nodup_nil, ?_, ?_, ?_⟩
  · intro k; simp [mlookup]
  · intro k cm h; simp [mlookup] at h
  · intro p hp; simp at hp

theorem compileMod_post (t : GModNode) (hcoh : Coh t) :
    ∀ (nsz : Nat) (a : GModNode), sizeOf a ≤ nsz → ∀ st, SubMod a t → InvC t st →
      InvC t (compileMod a st).2 ∧
      (∀ k v, mlookup st.cmemo k = some v →
        mlookup (compileMod a st).2.cmemo k = some v) ∧
      mlookup (compileMod a st).2.cmemo (compileMod a st).1.srcNid
        = some (compileMod a st).1 ∧
      (compileMod a st).1.srcNid = a.nid ∧
      (compileMod a st).1.ctr = a.ctr ∧
      (∀ k, (mlookup (compileMod a st).2.cmemo k).isSome = true →
        (mlookup st.cmemo k).isSome = true ∨ ∃ b, SubMod b a ∧ b.nid = k) := by
  intro nsz
  induction nsz with
  | zero =>
    intro a ha
    cases a with
    | mk nid c ims cs =>
      rw [GModNode.mk.sizeOf_spec] at ha
      omega
  | succ nsz ih =>
    intro a ha st hsub hinv
    cases a with
    | mk nid c ims cs =>
      have hims : ∀ im ∈ ims, sizeOf im ≤ nsz := by
        intro im him
        have hlt := List.sizeOf_lt_of_mem him
        have hspec := GModNode.mk.sizeOf_spec nid c ims cs
        omega
      have himsub : ∀ im ∈ ims, SubMod im t := by
        intro im him
        exact SubMod.trans
          (SubMod.imp (GModNode.mk nid c ims cs)
            (by simp [GModNode.imports, him]) (SubMod.refl im)) hsub
      cases hm : mlookup st.cmemo nid with
      | some cm =>
        obtain ⟨ha1, hb1, hc1, hd1⟩ := hinv
        obtain ⟨hsrc, ⟨a', hsa', hna', hca'⟩, _⟩ := hc1 nid cm hm
        have haa : a' = GModNode.mk nid c ims cs := by
          apply hcoh a' (GModNode.mk nid c ims cs) hsa' hsub
          exact Or.inr (by rw [GModNode.gnid_mk]; exact hna')
        refine ⟨?_, ?_, ?_, ?_, ?_, ?_⟩ <;> simp only [compileMod, hm]
        · exact ⟨ha1, hb1, hc1, hd1⟩
        · exact fun k v hv => hv
        · rw [hsrc]; exact hm
        · rw [GModNode.gnid_mk]; exact hsrc
        · rw [← hca', haa, GModNode.gctr_mk]
        · exact fun k hk => Or.inl hk
      | none =>
        -- list traversal over the imports
        have hlist : ∀ (ms : List GModNode) (st₀ : CplState),
            (∀ m ∈ ms, sizeOf m ≤ nsz) → (∀ m ∈ ms, SubMod m t) → InvC t st₀ →
            InvC t (compileMod.compileModList ms st₀).2 ∧
            (∀ k v, mlookup st₀.cmemo k = some v →
              mlookup (compileMod.compileModList ms st₀).2.cmemo k = some v) ∧
            (∀ cm ∈ (compileMod.compileModList ms st₀).1,
              mlookup (compileMod.compileModList ms st₀).2.cmemo cm.srcNid = some cm) ∧
            (∀ k, (mlookup (compileMod.compileModList ms st₀).2.cmemo k).isSome = true →
              (mlookup st₀.cmemo k).isSome = true ∨
              ∃ b m, m ∈ ms ∧ SubMod b m ∧ b.nid = k) := by
          intro ms
          induction ms with
          | nil =>
            intro st₀ _ _ hinv₀
            simp only [compileMod.compileModList]
            exact ⟨hinv₀, fun _ _ hv => hv, by simp, fun k hk => Or.inl hk⟩
          | cons m' ms' ihl =>
            intro st₀ hsz hsb hinv₀
            have hp := ih m' (hsz m' (by simp)) st₀ (hsb m' (by simp)) hinv₀
            obtain ⟨hinv₁, hmono₁, hreg₁, hsrc₁, hctr₁, hrank₁⟩ := hp
            have hq := ihl (compileMod m' st₀).2
              (fun x hx => hsz x (by simp [hx])) (fun x hx => hsb x (by simp [hx])) hinv₁
            obtain ⟨hinv₂, hmono₂, hreg₂, hrank₂⟩ := hq
            simp only [compileMod.compileModList]
            refine ⟨hinv₂, fun k v hv => hmono₂ k v (hmono₁ k v hv), ?_, ?_⟩
            · intro cm hcm
              rcases List.mem_cons.1 hcm with hcm | hcm
              · subst hcm
                exact hmono₂ _ _ hreg₁
              · exact hreg₂ cm hcm
            · intro k hk
              rcases hrank₂ k hk with hk' | ⟨b, m, hmm, hbm, hbk⟩
              · rcases hrank₁ k hk' with hk'' | ⟨b, hbm, hbk⟩
                · exact Or.inl hk''
                · exact Or.inr ⟨b, m', by simp, hbm, hbk⟩
              · exact Or.inr ⟨b, m, by simp [hmm], hbm, hbk⟩
        obtain ⟨hinv1, hmono1, hreg1, hrank1⟩ := hlist ims st hims himsub hinv
        set st1 := (compileMod.compileModList ims st).2 with hst1
        set cims := (compileMod.compileModList ims st).1 with hcims
        -- the source identity is not yet compiled after the imports
        have hcnot : (mlookup st1.cmemo nid).isSome = false := by
          cases hcase : (mlookup st1.cmemo nid).isSome with
          | false => rfl
          | true =>
            rcases hrank1 nid hcase with hks | ⟨b, m, hmm, hbm, hbk⟩
            · rw [hm] at hks; simp at hks
            · have hbt : SubMod b t := SubMod.trans hbm (himsub m hmm)
              have hba : b = GModNode.mk nid c ims cs := by
                apply hcoh b (GModNode.mk nid c ims cs) hbt hsub
                exact Or.inr (by rw [GModNode.gnid_mk]; exact hbk)
              have hsz1 : sizeOf b ≤ sizeOf m := SubMod.size_le hbm
              have hsz2 := List.sizeOf_lt_of_mem hmm
              have hspec := GModNode.mk.sizeOf_spec nid c ims cs
              rw [hba] at hsz1
              omega
        obtain ⟨ha1, hb1, hc1, hd1⟩ := hinv1
        have hncalloc : nid ∉ st1.calloc.map Prod.fst := by
          intro hmem
          rw [← hb1 nid] at hmem
          rw [hcnot] at hmem
          exact Bool.noConfusion hmem
        have hregpres : ∀ k v, mlookup st1.cmemo k = some v →
            mlookup ((nid, CompiledMod.mk nid c cims) :: st1.cmemo) k = some v := by
          intro k v hk
          have hkn : k ≠ nid := by
            intro hh
            subst hh
            rw [hk] at hcnot
            simp at hcnot
          simp [mlookup, Ne.symm hkn]
          exact hk
        refine ⟨⟨?_, ?_, ?_, ?_⟩, ?_, ?_, ?_, ?_, ?_⟩ <;>
          simp only [compileMod, hm, ← hst1, ← hcims]
        · simp only [List.map_append, List.map_cons, List.map_nil]
          rw [List.nodup_append]
          exact ⟨ha1, List.nodup_singleton nid,
            fun x hx hx2 => by simp at hx2; subst hx2; exact hncalloc hx⟩
        · intro k
          by_cases hkc : k = nid
          · simp [mlookup, hkc]
          · simp [mlookup, Ne.symm hkc, hb1 k, hkc]
        · intro k cm hk
          by_cases hkc : k = nid
          · simp [mlookup, hkc] at hk
            refine ⟨by rw [← hk]; simp [CompiledMod.srcNid, hkc], ?_, ?_⟩
            · refine ⟨GModNode.mk nid c ims cs, hsub, by simp [GModNode.nid, hkc], ?_⟩
              rw [← hk]
              simp [GModNode.ctr, CompiledMod.ctr]
            · intro cim hcim
              rw [← hk] at hcim
              simp [CompiledMod.imports] at hcim
              exact hregpres _ _ (hreg1 cim hcim)
          · simp [mlookup, Ne.symm hkc] at hk
            obtain ⟨hsrc, hwit, himps⟩ := hc1 k cm hk
            exact ⟨hsrc, hwit, fun cim hcim => hregpres _ _ (himps cim hcim)⟩
        · intro p hp
          rcases List.mem_append.1 hp with hp | hp
          · exact hd1 p hp
          · simp at hp
            subst hp
            exact ⟨GModNode.mk nid c ims cs, hsub, by simp [GModNode.nid],
              by simp [GModNode.ctr]⟩
        · exact fun k v hv => hregpres k v (hmono1 k v hv)
        · simp [CompiledMod.srcNid, mlookup]
        · simp [CompiledMod.srcNid, GModNode.nid]
        · simp [CompiledMod.ctr, GModNode.ctr]
        · intro k hk
          by_cases hkc : k = nid
          · exact Or.inr ⟨GModNode.mk nid c ims cs, SubMod.refl _,
              by simp [GModNode.nid, hkc]⟩
          · simp [mlookup, Ne.symm hkc] at hk
            rcases hrank1 k hk with hks | ⟨b, m, hmm, hbm, hbk⟩
            · exact Or.inl hks
            · exact Or.inr ⟨b,
                SubMod.trans hbm (SubMod.imp (GModNode.mk nid c ims cs)
                  (by simp [GModNode.imports, hmm]) (SubMod.refl m)), hbk⟩

/-- Every compiled node occurring in a memo-registered compiled tree is
itself the memo entry of its source identity. -/
theorem csub_registered (st : CplState)
    (hclosed : ∀ k cm, mlookup st.cmemo k = some cm → cm.srcNid = k ∧
      ∀ cim ∈ cm.imports, mlookup st.cmemo cim.srcNid = some cim) :
    ∀ a n, CSub a n → mlookup st.cmemo n.srcNid = some n →
      mlookup st.cmemo a.srcNid = some a := by
  intro a n h
  induction h with
  | refl => exact id
  | imp n him _ ih => intro hn; exact ih ((hclosed _ _ hn).2 _ him)

/-- C8.  For a successful build of an acyclic import graph: the graph
builder allocates exactly one `ModuleNode` per module class — any two
occurrences of a class in the result tree are the same node (shared by
reference) — and the compiler, memoized by node identity, constructs
exactly one `CompiledModule` per module class, any two occurrences of a
class in the compiled tree being the same compiled module. -/
theorem module_identity_memoized (env : GEnv) (rk : Nat → Nat) (fuel root : Nat)
    (n : GModNode) (s' : GState) (hacyc : Acyc env rk)
    (hok : graphBuilderF env fuel root = BRes.ok (n, s')) :
    (s'.alloc.map Prod.fst).Nodup ∧
    (∀ a b, SubMod a n → SubMod b n → a.ctr = b.ctr → a = b) ∧
    ((compileMod n ⟨[], []⟩).2.calloc.map Prod.snd).Nodup ∧
    (∀ ca cb, CSub ca (compileMod n ⟨[], []⟩).1 →
      CSub cb (compileMod n ⟨[], []⟩).1 → ca.ctr = cb.ctr → ca = cb) := by
  obtain ⟨hnodup, hcoh⟩ := graphBuilder_unique env rk fuel root n s' hacyc hok
  have hpost := compileMod_post n hcoh (sizeOf n) n (Nat.le_refl _) ⟨[], []⟩
    (SubMod.refl n) (InvC_init n)
  obtain ⟨⟨hca, hcb, hcc, hcd⟩, hmono, hregc, hsrcc, hctrc, hrankc⟩ := hpost
  have hclosed' : ∀ k cm, mlookup (compileMod n ⟨[], []⟩).2.cmemo k = some cm →
      cm.srcNid = k ∧
      ∀ cim ∈ cm.imports, mlookup (compileMod n ⟨[], []⟩).2.cmemo cim.srcNid = some cim := by
    intro k cm hk
    exact ⟨(hcc k cm hk).1, (hcc k cm hk).2.2⟩
  refine ⟨hnodup, fun a b hsa hsb h => hcoh a b hsa hsb (Or.inl h), ?_, ?_⟩
  · apply List.Nodup.map_on ?_ (List.Nodup.of_map Prod.fst hca)
    intro p hp q hq hpq
    obtain ⟨a1, hsa1, hn1, hc1⟩ := hcd p hp
    obtain ⟨a2, hsa2, hn2, hc2⟩ := hcd q hq
    have h12 : a1 = a2 := by
      apply hcoh a1 a2 hsa1 hsa2
      exact Or.inl (by rw [hc1, hc2, hpq])
    have hfst : p.1 = q.1 := by rw [← hn1, ← hn2, h12]
    exact Prod.ext hfst hpq
  · intro ca cb hsca hscb hctr
    have hra := csub_registered (compileMod n ⟨[], []⟩).2 hclosed' ca
      (compileMod n ⟨[], []⟩).1 hsca hregc
    have hrb := csub_registered (compileMod n ⟨[], []⟩).2 hclosed' cb
      (compileMod n ⟨[], []⟩).1 hscb hregc
    obtain ⟨_, ⟨a1, hsa1, hn1, hc1⟩, _⟩ := hcc ca.srcNid ca hra
    obtain ⟨_, ⟨a2, hsa2, hn2, hc2⟩, _⟩ := hcc cb.srcNid cb hrb
    have h12 : a1 = a2 := by
      apply hcoh a1 a2 hsa1 hsa2
      exact Or.inl (by rw [hc1, hc2, hctr])
    have hkey : ca.srcNid = cb.srcNid := by rw [← hn1, ← hn2, h12]
    rw [hkey] at hra
    rw [hra] at hrb
    exact Option.some.inj hrb

/-- A diamond: module `0` declares module `1` twice in its imports. -/
def envDia : GEnv :=
  ⟨fun c =>
    if c = 0 then some ⟨true, [1, 1], []⟩
    else if c = 1 then some ⟨true, [], []⟩
    else none,
   fun _ => none⟩

/-- C8 witness: building the diamond succeeds; the allocation log, the
tree, the compiled log and the compiled tree all identify the doubly
referenced module. -/
theorem module_identity_memoized_witness :
    ∃ n s', graphBuilderF envDia 5 0 = BRes.ok (n, s') ∧
      (s'.alloc.map Prod.fst).Nodup ∧
      (∀ a b, SubMod a n → SubMod b n → a.ctr = b.ctr → a = b) ∧
      ((compileMod n ⟨[], []⟩).2.calloc.map Prod.snd).Nodup ∧
      (∀ ca cb, CSub ca (compileMod n ⟨[], []⟩).1 →
        CSub cb (compileMod n ⟨[], []⟩).1 → ca.ctr = cb.ctr → ca = cb) := by
  have hacyc : Acyc envDia (fun c => if c = 0 then 1 else 0) := by
    intro c meta hm c' hc'
    by_cases h0 : c = 0
    · subst h0
      simp [envDia] at hm
      subst hm
      simp at hc'
      subst hc'
      decide
    · by_cases h1 : c = 1
      · subst h1
        simp [envDia] at hm
        subst hm
        simp at hc'
      · simp [envDia, h0, h1] at hm
  exact ⟨_, _, rfl,
    module_identity_memoized envDia (fun c => if c = 0 then 1 else 0) 5 0 _ _ hacyc rfl⟩

/-! ## Dependency injector

Modelled from the spec: `injector.ts` is not under `src/` — only its
tests and callers are.  Spec §4.2: `resolve(token)` searches (1) the
injector's own instance cache, returning a cached value; (2) the local
provider list, first matching token wins; (3) each imported module's
injector recursively, in declaration order, with the same three-step
search; a miss is `ProviderNotFoundError`.  On finding a provider the
factory is invoked and, after it resolves, the value is cached in the
*owning* injector.  Factories are abstracted to the value they produce;
a global counter counts factory invocations.  The recursion through
the imports is fuel-indexed. -/

/-- A provider: token and the value its factory produces. -/
structure ProvM where
  tok : Nat
  val : Nat

/-- An injector's static shape: local providers and imported module
identities. -/
structure InjM where
  provs : List ProvM
  imps : List Nat

/-- The injector registry: static shapes, the per-injector instance
caches, and the factory-invocation counter. -/
structure DIReg where
  injs : Nat → InjM
  cache : Nat → Nat → Option Nat
  calls : Nat

/-- Result of the three-step search: a cached value, or a provider found
at its owning injector. -/
inductive SearchRes where
  | cachedV (v : Nat)
  | provAt (owner : Nat) (v : Nat)
  deriving DecidableEq, Repr

/-- First provider matching the token wins. -/
def firstProv : List ProvM → Nat → Option Nat
  | [], _ => none
  | p :: ps, t => if p.tok = t then some p.val else firstProv ps t

/-- First hit among the imported injectors, in declaration order. -/
def firstSome (f : Nat → Option SearchRes) : List Nat → Option SearchRes
  | [] => none
  | j :: js =>
    match f j with
    | some res => some res
    | none => firstSome f js

/-- The three-step search: own cache, own providers, then the imports
recursively. -/
def searchDI (r : DIReg) : Nat → Nat → Nat → Option SearchRes
  | 0, _, _ => none
  | fuel + 1, i, t =>
    match r.cache i t with
    | some v => some (SearchRes.cachedV v)
    | none =>
      match firstProv (r.injs i).provs t with
      | some v => some (SearchRes.provAt i v)
      | none => firstSome (fun j => searchDI r fuel j t) (r.injs i).imps

/-- Cache the resolved value in the owning injector and count the
factory invocation. -/
def cacheIns (r : DIReg) (o t v : Nat) : DIReg :=
  { r with
    cache := fun i' t' => if i' = o ∧ t' = t then some v else r.cache i' t',
    calls := r.calls + 1 }

/-- Mirror of `resolve(token)`: a cache hit returns the cached value unchanged; a
found provider invokes its factory and caches the value in the owning
injector; a miss is `ProviderNotFoundError` (`none`). -/
def resolveDI (r : DIReg) (fuel i t : Nat) : Option (Nat × DIReg) :=
  match searchDI r fuel i t with
  | some (SearchRes.cachedV v) => some (v, r)
  | some (SearchRes.provAt o v) => some (v, cacheIns r o t v)
  | none => none

theorem firstSome_none {f : Nat → Option SearchRes} {js : List Nat}
    (h : firstSome f js = none) : ∀ j ∈ js, f j = none := by
  induction js with
  | nil => intro j hj; simp at hj
  | cons j' js' ih =>
    intro j hj
    rw [firstSome] at h
    cases hf : f j' with
    | some res => rw [hf] at h; simp at h
    | none =>
      rw [hf] at h
      rcases List.mem_cons.1 hj with hj | hj
      · rw [hj]; exact hf
      · exact ih h j hj

theorem firstSome_of_none {f : Nat → Option SearchRes} {js : List Nat}
    (h : ∀ j ∈ js, f j = none) : firstSome f js = none := by
  induction js with
  | nil => rfl
  | cons j' js' ih =>
    rw [firstSome, h j' (by simp)]
    exact ih (fun j hj => h j (by simp [hj]))

/-- A search that misses stays a miss after the owner of a provider for
the token caches a value: the only cache entry added lives at an
injector whose provider list matches the token, which a missing search
never reached. -/
theorem searchDI_none_stable (o t v w : Nat) (r : DIReg)
    (hprov : firstProv (r.injs o).provs t = some w) :
    ∀ fuel j, searchDI r fuel j t = none →
      searchDI (cacheIns r o t v) fuel j t = none := by
  intro fuel
  induction fuel with
  | zero => intro j _; rfl
  | succ fuel ih =>
    intro j hj
    rw [searchDI] at hj
    cases hc : r.cache j t with
    | some u => rw [hc] at hj; simp at hj
    | none =>
      rw [hc] at hj
      cases hp : firstProv (r.injs j).provs t with
      | some u => rw [hp] at hj; simp at hj
      | none =>
        rw [hp] at hj
        have hjo : j ≠ o := by
          intro hh
          rw [hh, hprov] at hp
          exact Option.noConfusion hp
        rw [searchDI]
        have hc' : (cacheIns r o t v).cache j t = none := by
          simp [cacheIns, hjo]
          exact hc
        rw [hc']
        have hp' : firstProv ((cacheIns r o t v).injs j).provs t = none := by
          simpa [cacheIns] using hp
        rw [hp']
        apply firstSome_of_none
        intro j' hj'
        exact ih j' (firstSome_none hj j' hj')

/-- A search that finds a provider finds, after the owner caches the
value, that cached value: the providing injector is reached along the
same path, its earlier steps still missing, and now hits its cache. -/
theorem searchDI_prov_cached (t v : Nat) (r : DIReg) :
    ∀ fuel i o, searchDI r fuel i t = some (SearchRes.provAt o v) →
      firstProv (r.injs o).provs t = some v ∧
      searchDI (cacheIns r o t v) fuel i t = some (SearchRes.cachedV v) := by
  intro fuel
  induction fuel with
  | zero => intro i o h; simp [searchDI] at h
  | succ fuel ih =>
    intro i o h
    rw [searchDI] at h
    cases hc : r.cache i t with
    | some u => rw [hc] at h; simp at h
    | none =>
      rw [hc] at h
      cases hp : firstProv (r.injs i).provs t with
      | some u =>
        rw [hp] at h
        simp at h
        obtain ⟨ho, hv⟩ := h
        rw [← ho, ← hv]
        refine ⟨hp, ?_⟩
        rw [searchDI]
        have hc2 : (cacheIns r i t u).cache i t = some u := by
          simp [cacheIns]
        rw [hc2]
      | none =>
        rw [hp] at h
        generalize hjs : (r.injs i).imps = js at h
        have hprov : firstProv (r.injs o).provs t = some v := by
          clear hjs
          revert h
          induction js with
          | nil => intro h; simp [firstSome] at h
          | cons j2 js2 ihl =>
            intro h
            cases hf : searchDI r fuel j2 t with
            | some res =>
              simp only [firstSome, hf] at h
              simp at h
              rw [h] at hf
              exact (ih j2 o hf).1
            | none =>
              simp only [firstSome, hf] at h
              exact ihl h
        refine ⟨hprov, ?_⟩
        by_cases hio : i = o
        · rw [searchDI]
          have hc2 : (cacheIns r o t v).cache i t = some v := by
            simp [cacheIns, hio]
          rw [hc2]
        · rw [searchDI]
          have hc2 : (cacheIns r o t v).cache i t = none := by
            simp [cacheIns, hio]
            exact hc
          rw [hc2]
          have hp2 : firstProv ((cacheIns r o t v).injs i).provs t = none := by
            simpa [cacheIns] using hp
          rw [hp2]
          have hjs2 : ((cacheIns r o t v).injs i).imps = js := by
            simpa [cacheIns] using hjs
          rw [hjs2]
          clear hc hp hc2 hp2 hjs hjs2
          revert h
          induction js with
          | nil => intro h; simp [firstSome] at h
          | cons j2 js2 ihl =>
            intro h
            cases hf : searchDI r fuel j2 t with
            | some res =>
              simp only [firstSome, hf] at h
              simp at h
              rw [h] at hf
              have hcach := (ih j2 o hf).2
              simp only [firstSome, hcach]
            | none =>
              simp only [firstSome, hf] at h
              have hstable := searchDI_none_stable o t v v r hprov fuel j2 hf
              simp only [firstSome, hstable]
              exact ihl h

/-- C9.  A provider factory is invoked at most once per resolution: a
successful `resolve(token)` makes at most one factory invocation, caches
the value in the owning injector, and every subsequent sequential
`resolve(token)` on the same injector returns the cached value with the
registry unchanged — in particular without invoking the factory again
(the invocation counter stays put). -/
theorem injector_caches_factory (r : DIReg) (fuel i t v : Nat) (r' : DIReg)
    (hok : resolveDI r fuel i t = some (v, r')) :
    resolveDI r' fuel i t = some (v, r') ∧
    r'.calls ≤ r.calls + 1 := by
  rw [resolveDI] at hok
  cases hs : searchDI r fuel i t with
  | none => rw [hs] at hok; simp at hok
  | some res =>
    rw [hs] at hok
    cases res with
    | cachedV w =>
      simp at hok
      obtain ⟨hv, hr⟩ := hok
      subst hv; subst hr
      rw [resolveDI, hs]
      exact ⟨rfl, Nat.le_succ _⟩
    | provAt o w =>
      simp at hok
      obtain ⟨hv, hr⟩ := hok
      rw [hv] at hs
      rw [hv] at hr
      have hcached := (searchDI_prov_cached t v r fuel i o hs).2
      rw [resolveDI, ← hr, hcached]
      exact ⟨rfl, by simp [cacheIns]⟩

/-- The counter-test registry: one injector (`0`) providing token `7`
with value `42`; empty caches, counter `0`. -/
def diReg0 : DIReg :=
  ⟨fun _ => ⟨[⟨7, 42⟩], []⟩, fun _ _ => none, 0⟩

/-- C9 witness: resolving token `7` three times sequentially on the same
injector yields `42` each time and ends with the factory-invocation
counter at `1`. -/
theorem injector_caches_factory_witness :
    ∃ r1, resolveDI diReg0 3 0 7 = some (42, r1) ∧
      resolveDI r1 3 0 7 = some (42, r1) ∧
      r1.calls = 1 := by
  refine ⟨_, rfl, ?_, rfl⟩
  exact (injector_caches_factory diReg0 3 0 7 42 _ rfl).1

end Cho
